import Mathlib

/-!
Verification development for the commit-town commit-activity aggregation and
streak-tracking engine.

The Go source under `apps/api` supplies the data model (models/user.go,
models/user_repository.go, models/user_daily_commit_log.go, the unnamed parts
holding models/repo_daily_commit_log.go, models/user_streak.go and db/db.go),
the user repository layer (repository/user_repository.go), the usecase and the
HTTP controller.  The ingestion gate, user aggregator and streak engine are
described by the specification only (the repository contains just their
schema), so those operations are modelled from the spec and marked as such in
their doc comments.  Calendar dates are represented at the canonical-day
granularity the spec mandates, as natural numbers.
-/

abbrev UserId := Nat
abbrev RepoId := Nat
abbrev Day := Nat

/-- User model, from `apps/api/models/user.go`: app user backed by a GitHub
account.  `githubUserId` is the immutable unique external identifier
(gorm tag `uniqueIndex` on `github_user_id`); `githubUsername` is the mutable
display login; `deletedAt` is the gorm soft-delete marker (`none` = live). -/
structure User where
  id : Nat
  githubUserId : Nat
  githubUsername : String
  email : String
  createdAt : Day
  updatedAt : Day
  deletedAt : Option Day
deriving DecidableEq, Repr

/-- Unique-index columns declared on the `users` table by the gorm tags in
`apps/api/models/user.go` (`GitHubUserID uint64 gorm:uniqueIndex`). -/
def userUniqueIndexColumns : List String := ["github_user_id"]

/-- Tracked repository model, from `apps/api/models/user_repository.go`
(`UserRepository`): a GitHub repository registered by a user.  A repository is
active while `deactivatedAt = none`. -/
structure UserRepository where
  id : RepoId
  userId : UserId
  repoOwner : String
  repoName : String
  isPublic : Bool
  deactivatedAt : Option Day
deriving DecidableEq, Repr

/-- Per-repository daily commit record, from the models source
(`RepoDailyCommitLog`): keyed by (userRepoId, commitDate), holding the commit
count and the raw source payload.  The autoincrement id and timestamps are
storage bookkeeping and are not modelled. -/
structure RepoDailyCommitLog where
  userRepoId : RepoId
  commitDate : Day
  commitCount : Int
  rawData : String
deriving DecidableEq, Repr

/-- Per-user daily total, from `apps/api/models/user_daily_commit_log.go`
(`UserDailyCommitLog`): keyed by (userId, date). -/
structure UserDailyCommitLog where
  userId : UserId
  date : Day
  totalCommits : Int
deriving DecidableEq, Repr

/-- Streak interval row, from the models source (`UserStreak`): keyed by
(userId, startDate); `endDate` is null while the interval is active. -/
structure UserStreak where
  userId : UserId
  startDate : Day
  endDate : Option Day
  length : Nat
  active : Bool
deriving DecidableEq, Repr

/-- Unique indexes created by `addUniqueConstraints` in the db migration source
(db.go): (table, key columns). -/
def uniqueIndexes : List (String × List String) :=
  [("user_repositories", ["user_id", "repo_owner", "repo_name"]),
   ("repo_daily_commit_logs", ["user_repo_id", "commit_date"]),
   ("user_daily_commit_logs", ["user_id", "date"])]

/-- Whole persisted state of the core: the five relations of the data model. -/
structure CoreState where
  users : List User
  repos : List UserRepository
  repoLogs : List RepoDailyCommitLog
  userLogs : List UserDailyCommitLog
  streaks : List UserStreak
deriving DecidableEq, Repr

/-- Error taxonomy of the operations modelled here (spec section 7). -/
inductive CoreError where
  | validationError
  | notFoundError
deriving DecidableEq, Repr

/-- Replace-on-conflict upsert: if some stored row matches `key`, every
matching row is replaced by `r`; otherwise `r` is appended.  Shared shape of
the keyed upserts of the persistence boundary. -/
def upsertBy (key : α → Bool) (r : α) (logs : List α) : List α :=
  if logs.any key then logs.map (fun l => if key l then r else l) else logs ++ [r]

/-- Modelled from the spec: full replace-on-conflict upsert of a
RepoDayCommitRecord keyed by (repositoryId, date); never additive. -/
def upsertRepoLog (logs : List RepoDailyCommitLog) (r : RepoDailyCommitLog) :
    List RepoDailyCommitLog :=
  upsertBy (fun l => l.userRepoId == r.userRepoId && l.commitDate == r.commitDate) r logs

/-- Modelled from the spec: replace-on-conflict upsert of a UserDayCommitRecord
keyed by (userId, date). -/
def upsertUserLog (logs : List UserDailyCommitLog) (r : UserDailyCommitLog) :
    List UserDailyCommitLog :=
  upsertBy (fun l => l.userId == r.userId && l.date == r.date) r logs

/-- Lookup of the stored per-repository record for a (repository, date) key. -/
def lookupRepoLog (logs : List RepoDailyCommitLog) (rid : RepoId) (d : Day) :
    Option RepoDailyCommitLog :=
  logs.find? (fun l => l.userRepoId == rid && l.commitDate == d)

/-- Stored commit count of a repository on a day; a repository with no record
for that day contributes 0. -/
def repoCount (logs : List RepoDailyCommitLog) (rid : RepoId) (d : Day) : Int :=
  match lookupRepoLog logs rid d with
  | some l => l.commitCount
  | none => 0

/-- Lookup of the stored per-user total row for a (user, date) key. -/
def lookupUserLog (logs : List UserDailyCommitLog) (uid : UserId) (d : Day) :
    Option UserDailyCommitLog :=
  logs.find? (fun l => l.userId == uid && l.date == d)

/-- Stored per-user daily total, when present. -/
def userTotal (s : CoreState) (uid : UserId) (d : Day) : Option Int :=
  (lookupUserLog s.userLogs uid d).map (fun l => l.totalCommits)

/-- Modelled from the spec (section 4.2): the sum of stored per-repository
counts on day `d` over the repositories owned by `uid` that are currently
active (not deactivated); repositories with no record for `d` contribute 0. -/
def activeSum (s : CoreState) (uid : UserId) (d : Day) : Int :=
  ((s.repos.filter (fun r => r.userId == uid && r.deactivatedAt.isNone)).map
    (fun r => repoCount s.repoLogs r.id d)).sum

/-- Modelled from the spec (section 4.1): the ingestion gate.  The missing
source operation `ingest(repositoryId, date, count, rawPayload)`.  The date
argument carries its parsed canonical-day value, `none` when malformed.
Validation rejects a negative count or a malformed date; the repository must
exist (it may be inactive); on success the record is upserted
(replace-on-conflict) and returned. -/
def ingest (s : CoreState) (rid : RepoId) (date : Option Day) (count : Int)
    (raw : String) : Except CoreError (CoreState × RepoDailyCommitLog) :=
  if count < 0 then .error .validationError
  else
    match date with
    | none => .error .validationError
    | some d =>
      match s.repos.find? (fun r => r.id == rid) with
      | none => .error .notFoundError
      | some _ =>
        .ok ({ s with repoLogs := upsertRepoLog s.repoLogs ⟨rid, d, count, raw⟩ },
             ⟨rid, d, count, raw⟩)

/-- Modelled from the spec (section 4.2): `recomputeUserDay` without the
user-existence check — always recomputes the (uid, d) total from scratch as
`activeSum` and overwrites the single row for that key. -/
def recomputeUserDayPure (s : CoreState) (uid : UserId) (d : Day) : CoreState :=
  { s with userLogs := upsertUserLog s.userLogs ⟨uid, d, activeSum s uid d⟩ }

/-- Modelled from the spec (section 4.2): `recomputeUserDay(userId, date)`,
failing with NotFoundError when the user is unknown and otherwise returning
the new state together with the written row. -/
def recomputeUserDay (s : CoreState) (uid : UserId) (d : Day) :
    Except CoreError (CoreState × UserDailyCommitLog) :=
  if s.users.any (fun u => u.id == uid) then
    .ok (recomputeUserDayPure s uid d, ⟨uid, d, activeSum s uid d⟩)
  else .error .notFoundError

/-- Replay state of the streak engine while an interval is open:
`Active(start, lastCountedDate, length)` of spec section 4.3. -/
structure OpenStreak where
  startDate : Day
  lastCountedDate : Day
  len : Nat
deriving DecidableEq, Repr

/-- Modelled from the spec (section 4.3, step 3): one replay transition for
date `p.1` with total `p.2`.  A non-positive total performs no transition;
otherwise the open interval is opened, extended, left alone on a same-day
re-observation, or closed (with `end = lastCountedDate`, inactive) and a new
one opened on a gap.  Input dates are replayed in ascending order, so the
final catch-all branch (an out-of-order date) is never reached on sorted
input. -/
def streakStep (uid : UserId) (acc : List UserStreak × Option OpenStreak)
    (p : Day × Int) : List UserStreak × Option OpenStreak :=
  if p.2 ≤ 0 then acc
  else
    match acc.2 with
    | none => (acc.1, some ⟨p.1, p.1, 1⟩)
    | some o =>
      if o.lastCountedDate + 1 = p.1 then
        (acc.1, some ⟨o.startDate, p.1, o.len + 1⟩)
      else if o.lastCountedDate = p.1 then acc
      else if o.lastCountedDate + 1 < p.1 then
        (acc.1 ++ [⟨uid, o.startDate, some o.lastCountedDate, o.len, false⟩],
         some ⟨p.1, p.1, 1⟩)
      else acc

/-- Modelled from the spec (section 4.3, step 4): persist the replay result —
the closed intervals as immutable rows plus the final open interval, if any,
as the single active row (null end date). -/
def finishReplay (uid : UserId) (acc : List UserStreak × Option OpenStreak) :
    List UserStreak :=
  match acc.2 with
  | none => acc.1
  | some o => acc.1 ++ [⟨uid, o.startDate, none, o.len, true⟩]

/-- Modelled from the spec (section 4.3): full streak recomputation from a
per-day totals ledger replayed in the given (ascending) order, starting from
the NoStreak state. -/
def recomputeStreaksFromScratch (uid : UserId) (totals : List (Day × Int)) :
    List UserStreak :=
  finishReplay uid (totals.foldl (streakStep uid) ([], none))

/-- Ascending insertion by date into a date-sorted totals list. -/
def insertByDay (p : Day × Int) : List (Day × Int) → List (Day × Int)
  | [] => [p]
  | q :: rest => if p.1 ≤ q.1 then p :: q :: rest else q :: insertByDay p rest

/-- Sort a totals list ascending by date. -/
def sortByDay (l : List (Day × Int)) : List (Day × Int) :=
  l.foldr insertByDay []

/-- Stored per-day totals ledger of one user. -/
def userTotals (s : CoreState) (uid : UserId) : List (Day × Int) :=
  (s.userLogs.filter (fun l => l.userId == uid)).map (fun l => (l.date, l.totalCommits))

/-- Modelled from the spec (sections 4.3 and 6): streak recomputation for a
user over the full history (`forceFullRecompute` scope, `fromDate` = earliest):
every stored streak row of the user is invalidated and replaced by the replay
of the user's stored totals in ascending date order. -/
def recomputeStreaks (s : CoreState) (uid : UserId) : CoreState :=
  { s with
    streaks := s.streaks.filter (fun t => t.userId != uid) ++
      recomputeStreaksFromScratch uid (sortByDay (userTotals s uid)) }

/-- Modelled from the spec (sections 2 and 4): the full ingestion pipeline —
the ingestion gate upsert followed by the aggregation pass it schedules for
(ownerUserId, date) and the streak recomputation that in turn schedules for
the owner. -/
def ingestFull (s : CoreState) (rid : RepoId) (date : Option Day) (count : Int)
    (raw : String) : Except CoreError CoreState :=
  if count < 0 then .error .validationError
  else
    match date with
    | none => .error .validationError
    | some d =>
      match s.repos.find? (fun r => r.id == rid) with
      | none => .error .notFoundError
      | some repo =>
        .ok (recomputeStreaks (recomputeUserDayPure
          { s with repoLogs := upsertRepoLog s.repoLogs ⟨rid, d, count, raw⟩ }
          repo.userId d) repo.userId)

/-- FindByGitHubUserID of `apps/api/repository/user_repository.go`: first user
whose `github_user_id` matches; gorm's soft-delete scope excludes rows with a
set `deleted_at`. -/
def findByGitHubUserID (store : List User) (g : Nat) : Option User :=
  store.find? (fun u => u.deletedAt.isNone && u.githubUserId == g)

/-- Create of `apps/api/repository/user_repository.go`: inserts the record
(the caller supplies the autoincrement id and the auto timestamps). -/
def createUser (store : List User) (u : User) : List User :=
  store ++ [u]

/-- Update of `apps/api/repository/user_repository.go` (gorm `Save`): replaces
the row whose primary key matches `u.id` with `u`. -/
def updateUser (store : List User) (u : User) : List User :=
  store.map (fun x => if x.id == u.id then u else x)

/-- Upsert of `apps/api/repository/user_repository.go`: looks the user up by
GitHub user id; when absent, creates the record (with fresh id and
`createdAt = updatedAt = now`); when present, overwrites it keeping the
existing `ID` and `CreatedAt` and writing the new username, email and
`updatedAt = now` (gorm autoUpdateTime). -/
def upsertUser (store : List User) (g : Nat) (username email : String)
    (now freshId : Nat) : List User :=
  match findByGitHubUserID store g with
  | none => createUser store ⟨freshId, g, username, email, now, now, none⟩
  | some existing =>
      updateUser store ⟨existing.id, g, username, email, existing.createdAt, now, none⟩

/-- The user upsert lifted to the whole persisted state (it touches only the
users relation). -/
def upsertUserState (s : CoreState) (g : Nat) (username email : String)
    (now freshId : Nat) : CoreState :=
  { s with users := upsertUser s.users g username email now freshId }

/-- UpsertUserRequest of `apps/api/dto/user_dto.go`. -/
structure UpsertUserRequest where
  githubUserId : Nat
  githubUsername : String
  email : String
deriving DecidableEq, Repr

/-- Outcome of echo's request binding in the controller. -/
inductive BindResult where
  | ok (req : UpsertUserRequest)
  | failed
deriving DecidableEq, Repr

/-- UpsertUser of the controller source: returns 400 on a bind failure, 400
when `github_user_id` is 0, 400 when `github_username` is empty — each before
the usecase runs — and otherwise invokes the usecase (which performs the
repository upsert) and answers 200.  Result: (HTTP status, user store after
the call). -/
def upsertUserHandler (store : List User) (now freshId : Nat)
    (body : BindResult) : Nat × List User :=
  match body with
  | .failed => (400, store)
  | .ok req =>
    if req.githubUserId == 0 then (400, store)
    else if req.githubUsername == "" then (400, store)
    else (200, upsertUser store req.githubUserId req.githubUsername req.email now freshId)

/-- One well-formed ingestion observation delivered by the poller. -/
structure IngestEvent where
  repositoryId : RepoId
  date : Day
  count : Int
  rawPayload : String
deriving DecidableEq, Repr

/-- Apply one observation to the per-repository log store. -/
def applyEvent (logs : List RepoDailyCommitLog) (e : IngestEvent) :
    List RepoDailyCommitLog :=
  upsertRepoLog logs ⟨e.repositoryId, e.date, e.count, e.rawPayload⟩

/-- Per-repository log store after ingesting a list of observations in order,
starting from an empty store. -/
def replayEvents (events : List IngestEvent) : List RepoDailyCommitLog :=
  events.foldl applyEvent []

/-- Last observation for a (repository, date) key in arrival order. -/
def lastFor (events : List IngestEvent) (rid : RepoId) (d : Day) :
    Option IngestEvent :=
  events.reverse.find? (fun e => e.repositoryId == rid && e.date == d)

/-- Final recomputed per-user daily total after ingesting `events` (sum of the
stored counts over the user's active repositories). -/
def dayTotal (repos : List UserRepository) (events : List IngestEvent)
    (uid : UserId) (d : Day) : Int :=
  ((repos.filter (fun r => r.userId == uid && r.deactivatedAt.isNone)).map
    (fun r => repoCount (replayEvents events) r.id d)).sum

/-- Final streak interval set after ingesting `events` and recomputing the
totals of the days in `days` followed by a streak recomputation. -/
def streaksOf (uid : UserId) (repos : List UserRepository)
    (events : List IngestEvent) (days : List Day) : List UserStreak :=
  recomputeStreaksFromScratch uid
    (sortByDay (days.map (fun d => (d, dayTotal repos events uid d))))

/-- Any two observations of one delivery sharing a (repository, date) key are
identical (source snapshots are authoritative, so re-deliveries repeat the
same snapshot). -/
def EventsAgree (events : List IngestEvent) : Prop :=
  ∀ e ∈ events, ∀ f ∈ events,
    e.repositoryId = f.repositoryId → e.date = f.date → e = f

/-- Invariant: at most one active streak row per user. -/
def AtMostOneActive (s : CoreState) : Prop :=
  ∀ u, (s.streaks.filter (fun t => t.userId == u && t.active)).length ≤ 1

/-- Invariant: the (repository, date) keys of the per-repository log are
pairwise distinct. -/
def RepoKeysUnique (s : CoreState) : Prop :=
  (s.repoLogs.map (fun l => (l.userRepoId, l.commitDate))).Nodup

/-- Invariant: the (user, date) keys of the per-user log are pairwise
distinct. -/
def UserKeysUnique (s : CoreState) : Prop :=
  (s.userLogs.map (fun l => (l.userId, l.date))).Nodup

/-- Example user for concrete evaluations. -/
def uA : User := ⟨1, 100, "alice", "alice@example.com", 0, 0, none⟩

/-- Example active repository owned by user 1. -/
def repoA : UserRepository := ⟨1, 1, "alice", "town", true, none⟩

/-- Example deactivated repository owned by user 1. -/
def repoB : UserRepository := ⟨2, 1, "alice", "lib", true, some 3⟩

/-- Example state: one user, one active and one deactivated repository, a
commit record for each on day 1. -/
def sEx : CoreState :=
  ⟨[uA], [repoA, repoB], [⟨1, 1, 2, "p"⟩, ⟨2, 1, 5, "q"⟩], [], []⟩

/-- The aggregation result on the example state for (user 1, day 1). -/
def c1Out : CoreState × UserDailyCommitLog :=
  (recomputeUserDayPure sEx 1 1, ⟨1, 1, activeSum sEx 1 1⟩)

/-- The state after running the full ingestion pipeline once on the example
state for (repository 1, day 1, count 2). -/
def c3Out : CoreState :=
  ((ingestFull sEx 1 (some 1) 2 "p").toOption).getD sEx

/-- Repository list for the order-dependence counterexample: one active
repository with id 1 owned by user 10. -/
def cexRepos : List UserRepository := [⟨1, 10, "o", "n", true, none⟩]

/-- First conflicting observation: repository 1, day 1, count 1. -/
def cexE1 : IngestEvent := ⟨1, 1, 1, "a"⟩

/-- Second conflicting observation: same key (repository 1, day 1), count 2. -/
def cexE2 : IngestEvent := ⟨1, 1, 2, "b"⟩

/-- Key-distinct observation for the order-independence witness. -/
def c4E1 : IngestEvent := ⟨1, 1, 2, "p"⟩

/-- Key-distinct observation for the order-independence witness, day 2. -/
def c4E2 : IngestEvent := ⟨1, 2, 3, "q"⟩

-- ### Theorems

theorem map_eq_map_of {α β : Type} (f g : α → β) (L : List α)
    (h : ∀ a ∈ L, f a = g a) : L.map f = L.map g :=
  List.map_congr_left h

theorem map_id_of {α : Type} (f : α → α) (L : List α) (h : ∀ a ∈ L, f a = a) :
    L.map f = L := by
  rw [map_eq_map_of f id L h, List.map_id]

theorem any_upsertBy {α : Type} (key : α → Bool) (r : α) (logs : List α)
    (h : key r = true) : (upsertBy key r logs).any key = true := by
  unfold upsertBy
  by_cases hc : logs.any key = true
  · rw [if_pos hc]
    rcases List.any_eq_true.mp hc with ⟨l, hl, hkl⟩
    refine List.any_eq_true.mpr ⟨r, ?_, h⟩
    exact List.mem_map.mpr ⟨l, hl, by simp [hkl]⟩
  · rw [if_neg hc]
    exact List.any_eq_true.mpr ⟨r, by simp, h⟩

theorem mem_upsertBy_key {α : Type} (key : α → Bool) (r : α) (logs : List α)
    (_h : key r = true) : ∀ l ∈ upsertBy key r logs, key l = true → l = r := by
  intro l hl hkl
  unfold upsertBy at hl
  by_cases hc : logs.any key = true
  · rw [if_pos hc] at hl
    rcases List.mem_map.mp hl with ⟨x, hx, hfx⟩
    by_cases hkx : key x = true
    · rw [if_pos hkx] at hfx
      exact hfx.symm
    · rw [if_neg hkx] at hfx
      subst hfx
      exact absurd hkl hkx
  · rw [if_neg hc] at hl
    rcases List.mem_append.mp hl with hx | hx
    · exact absurd (List.any_eq_true.mpr ⟨l, hx, hkl⟩) hc
    · simpa using hx

theorem upsertBy_eq_self {α : Type} (key : α → Bool) (r : α) (L : List α)
    (h1 : L.any key = true) (h2 : ∀ l ∈ L, key l = true → l = r) :
    upsertBy key r L = L := by
  unfold upsertBy
  rw [if_pos h1]
  apply map_id_of
  intro a ha
  by_cases hk : key a = true
  · rw [if_pos hk]
    exact (h2 a ha hk).symm
  · rw [if_neg hk]

theorem upsertBy_idem {α : Type} (key : α → Bool) (r : α) (logs : List α)
    (h : key r = true) : upsertBy key r (upsertBy key r logs) = upsertBy key r logs :=
  upsertBy_eq_self key r _ (any_upsertBy key r logs h) (mem_upsertBy_key key r logs h)

theorem find?_eq_of_all_eq {α : Type} (key : α → Bool) (r : α) (L : List α)
    (h1 : L.any key = true) (h2 : ∀ l ∈ L, key l = true → l = r) :
    L.find? key = some r := by
  induction L with
  | nil => simp at h1
  | cons a L ih =>
    by_cases hk : key a = true
    · have ha : a = r := h2 a (by simp) hk
      subst ha
      rw [List.find?_cons_of_pos _ hk]
    · rw [List.find?_cons_of_neg _ (by simp [hk])]
      have h1' : L.any key = true := by
        rcases List.any_eq_true.mp h1 with ⟨x, hx, hkx⟩
        rcases List.mem_cons.mp hx with hxa | hx'
        · exact absurd (hxa ▸ hkx) hk
        · exact List.any_eq_true.mpr ⟨x, hx', hkx⟩
      exact ih h1' (fun l hl => h2 l (by simp [hl]))

theorem find?_upsertBy {α : Type} (key : α → Bool) (r : α) (logs : List α)
    (h : key r = true) : (upsertBy key r logs).find? key = some r :=
  find?_eq_of_all_eq key r _ (any_upsertBy key r logs h)
    (mem_upsertBy_key key r logs h)

theorem find?_map_replace {α : Type} (p key : α → Bool) (r : α) (L : List α)
    (h1 : p r = false) (h2 : ∀ l, key l = true → p l = false) :
    (L.map (fun l => if key l then r else l)).find? p = L.find? p := by
  induction L with
  | nil => rfl
  | cons a L ih =>
    simp only [List.map_cons]
    by_cases hk : key a = true
    · rw [if_pos hk]
      rw [List.find?_cons_of_neg _ (by simp [h1]),
        List.find?_cons_of_neg _ (by simp [h2 a hk])]
      exact ih
    · rw [if_neg hk]
      by_cases hpa : p a = true
      · rw [List.find?_cons_of_pos _ hpa, List.find?_cons_of_pos _ hpa]
      · rw [List.find?_cons_of_neg _ (by simp [hpa]),
          List.find?_cons_of_neg _ (by simp [hpa])]
        exact ih

theorem find?_upsertBy_ne {α : Type} (p key : α → Bool) (r : α) (logs : List α)
    (h1 : p r = false) (h2 : ∀ l, key l = true → p l = false) :
    (upsertBy key r logs).find? p = logs.find? p := by
  unfold upsertBy
  by_cases hc : logs.any key = true
  · rw [if_pos hc]
    exact find?_map_replace p key r logs h1 h2
  · rw [if_neg hc, List.find?_append]
    cases hf : logs.find? p with
    | some x => rfl
    | none => simp [List.find?, h1]

theorem nodup_map_upsertBy {α β : Type} (keyfn : α → β) (key : α → Bool) (r : α)
    (logs : List α) (hk : ∀ l, key l = true ↔ keyfn l = keyfn r)
    (h : (logs.map keyfn).Nodup) : ((upsertBy key r logs).map keyfn).Nodup := by
  unfold upsertBy
  by_cases hc : logs.any key = true
  · rw [if_pos hc]
    have heq : (logs.map (fun l => if key l then r else l)).map keyfn = logs.map keyfn := by
      rw [List.map_map]
      apply map_eq_map_of
      intro a ha
      by_cases hka : key a = true
      · simp only [Function.comp_apply, if_pos hka]
        exact ((hk a).mp hka).symm
      · simp only [Function.comp_apply, if_neg hka]
    rw [heq]
    exact h
  · rw [if_neg hc, List.map_append]
    refine List.nodup_append.mpr ⟨h, by simp, ?_⟩
    intro x hx hx2
    simp only [List.map_cons, List.map_nil, List.mem_singleton] at hx2
    subst hx2
    rcases List.mem_map.mp hx with ⟨l, hl, hfl⟩
    exact hc (List.any_eq_true.mpr ⟨l, hl, (hk l).mpr hfl⟩)

theorem streakStep_fst_mem (uid : UserId) (acc : List UserStreak × Option OpenStreak)
    (p : Day × Int) : ∀ t ∈ (streakStep uid acc p).1,
      t ∈ acc.1 ∨ (t.userId = uid ∧ t.active = false) := by
  intro t ht
  unfold streakStep at ht
  split at ht
  · exact Or.inl ht
  · split at ht
    · exact Or.inl ht
    · split at ht
      · exact Or.inl ht
      · split at ht
        · exact Or.inl ht
        · split at ht
          · rcases List.mem_append.mp ht with hmem | hmem
            · exact Or.inl hmem
            · simp only [List.mem_singleton] at hmem
              subst hmem
              exact Or.inr ⟨rfl, rfl⟩
          · exact Or.inl ht

theorem foldl_streakStep_fst (uid : UserId) (totals : List (Day × Int)) :
    ∀ acc t, t ∈ (List.foldl (streakStep uid) acc totals).1 →
      t ∈ acc.1 ∨ (t.userId = uid ∧ t.active = false) := by
  induction totals with
  | nil => exact fun acc t ht => Or.inl ht
  | cons p totals ih =>
    intro acc t ht
    rw [List.foldl_cons] at ht
    rcases ih _ t ht with hmem | hprop
    · exact streakStep_fst_mem uid acc p t hmem
    · exact Or.inr hprop

theorem fromScratch_userId (uid : UserId) (totals : List (Day × Int)) :
    ∀ t ∈ recomputeStreaksFromScratch uid totals, t.userId = uid := by
  intro t ht
  unfold recomputeStreaksFromScratch finishReplay at ht
  split at ht
  · rcases foldl_streakStep_fst uid totals ([], none) t ht with hmem | hprop
    · simp at hmem
    · exact hprop.1
  · rcases List.mem_append.mp ht with hmem | hmem
    · rcases foldl_streakStep_fst uid totals ([], none) t hmem with hmem' | hprop
      · simp at hmem'
      · exact hprop.1
    · simp only [List.mem_singleton] at hmem
      subst hmem
      rfl

theorem fromScratch_active_le_one (uid : UserId) (totals : List (Day × Int)) :
    ((recomputeStreaksFromScratch uid totals).filter (fun t => t.active)).length ≤ 1 := by
  have hnil : (List.foldl (streakStep uid) ([], none) totals).1.filter
      (fun t => t.active) = [] := by
    rw [List.filter_eq_nil_iff]
    intro t ht
    rcases foldl_streakStep_fst uid totals ([], none) t ht with hmem | hprop
    · simp at hmem
    · simp [hprop.2]
  unfold recomputeStreaksFromScratch finishReplay
  split
  · rw [hnil]
    simp
  · rw [List.filter_append, hnil]
    simp [List.filter]

theorem lookupUserLog_upsert (logs : List UserDailyCommitLog) (uid : UserId)
    (d : Day) (t : Int) :
    lookupUserLog (upsertUserLog logs ⟨uid, d, t⟩) uid d = some ⟨uid, d, t⟩ := by
  unfold lookupUserLog upsertUserLog
  exact find?_upsertBy _ _ logs (by simp)

theorem lookupRepoLog_upsert (logs : List RepoDailyCommitLog) (rid : RepoId)
    (d : Day) (c : Int) (raw : String) :
    lookupRepoLog (upsertRepoLog logs ⟨rid, d, c, raw⟩) rid d = some ⟨rid, d, c, raw⟩ := by
  unfold lookupRepoLog upsertRepoLog
  exact find?_upsertBy _ _ logs (by simp)

theorem upsertRepoLog_idem (logs : List RepoDailyCommitLog) (r : RepoDailyCommitLog) :
    upsertRepoLog (upsertRepoLog logs r) r = upsertRepoLog logs r := by
  unfold upsertRepoLog
  exact upsertBy_idem _ r logs (by simp)

theorem upsertUserLog_idem (logs : List UserDailyCommitLog) (r : UserDailyCommitLog) :
    upsertUserLog (upsertUserLog logs r) r = upsertUserLog logs r := by
  unfold upsertUserLog
  exact upsertBy_idem _ r logs (by simp)

theorem ingestFull_eval_found (s : CoreState) (rid : RepoId) (d : Day) (c : Int)
    (raw : String) (repo : UserRepository) (hc : ¬c < 0)
    (hfind : s.repos.find? (fun r => r.id == rid) = some repo) :
    ingestFull s rid (some d) c raw =
      .ok (recomputeStreaks (recomputeUserDayPure
        { s with repoLogs := upsertRepoLog s.repoLogs ⟨rid, d, c, raw⟩ }
        repo.userId d) repo.userId) := by
  unfold ingestFull
  rw [if_neg hc]
  simp only [hfind]

theorem ingestFull_eval_nonedate (s : CoreState) (rid : RepoId) (c : Int)
    (raw : String) (hc : ¬c < 0) :
    ingestFull s rid none c raw = .error .validationError := by
  unfold ingestFull
  rw [if_neg hc]

theorem ingestFull_eval_notfound (s : CoreState) (rid : RepoId) (d : Day) (c : Int)
    (raw : String) (hc : ¬c < 0)
    (hfind : s.repos.find? (fun r => r.id == rid) = none) :
    ingestFull s rid (some d) c raw = .error .notFoundError := by
  unfold ingestFull
  rw [if_neg hc]
  simp only [hfind]

theorem recomputeUserDayPure_stable (s : CoreState) (uid : UserId) (d : Day)
    (h : upsertUserLog s.userLogs ⟨uid, d, activeSum s uid d⟩ = s.userLogs) :
    recomputeUserDayPure s uid d = s := by
  unfold recomputeUserDayPure
  rw [h]

theorem recomputeStreaks_stable (s : CoreState) (uid : UserId)
    (h : s.streaks.filter (fun t => t.userId != uid) ++
      recomputeStreaksFromScratch uid (sortByDay (userTotals s uid)) = s.streaks) :
    recomputeStreaks s uid = s := by
  unfold recomputeStreaks
  rw [h]

theorem recomputeStreaks_idem (s : CoreState) (uid : UserId) :
    recomputeStreaks (recomputeStreaks s uid) uid = recomputeStreaks s uid := by
  apply recomputeStreaks_stable
  have e3 : userTotals (recomputeStreaks s uid) uid = userTotals s uid := rfl
  have e4 : (recomputeStreaks s uid).streaks =
      s.streaks.filter (fun t => t.userId != uid) ++
        recomputeStreaksFromScratch uid (sortByDay (userTotals s uid)) := rfl
  rw [e3, e4, List.filter_append, List.filter_filter]
  simp only [Bool.and_self]
  have hnew : (recomputeStreaksFromScratch uid (sortByDay (userTotals s uid))).filter
      (fun t => t.userId != uid) = [] := by
    rw [List.filter_eq_nil_iff]
    intro t ht
    simp [fromScratch_userId uid _ t ht]
  rw [hnew, List.append_nil]

theorem pipeline_idem (s : CoreState) (uid : UserId) (d : Day) :
    recomputeStreaks (recomputeUserDayPure
      (recomputeStreaks (recomputeUserDayPure s uid d) uid) uid d) uid =
    recomputeStreaks (recomputeUserDayPure s uid d) uid := by
  have hpure : recomputeUserDayPure
      (recomputeStreaks (recomputeUserDayPure s uid d) uid) uid d =
      recomputeStreaks (recomputeUserDayPure s uid d) uid := by
    apply recomputeUserDayPure_stable
    have e1 : activeSum (recomputeStreaks (recomputeUserDayPure s uid d) uid) uid d =
        activeSum s uid d := rfl
    have e2 : (recomputeStreaks (recomputeUserDayPure s uid d) uid).userLogs =
        upsertUserLog s.userLogs ⟨uid, d, activeSum s uid d⟩ := rfl
    rw [e1, e2]
    exact upsertUserLog_idem _ _
  rw [hpure]
  exact recomputeStreaks_idem _ uid

/-- C1: immediately after a successful recomputation for (user, date), the
stored per-user daily total equals the sum of the per-repository commit
counts for that date over exactly the repositories owned by the user that
are active (not deactivated) in the post-recomputation state; repositories
with no record for the date contribute 0 (both captured by `activeSum`). -/
theorem recompute_user_day_sum_invariant (s : CoreState) (uid : UserId) (d : Day)
    (out : CoreState × UserDailyCommitLog)
    (h : recomputeUserDay s uid d = .ok out) :
    userTotal out.1 uid d = some (activeSum out.1 uid d) := by
  unfold recomputeUserDay at h
  split at h
  · injection h with h1
    subst h1
    show userTotal (recomputeUserDayPure s uid d) uid d =
      some (activeSum (recomputeUserDayPure s uid d) uid d)
    have hsum : activeSum (recomputeUserDayPure s uid d) uid d = activeSum s uid d := rfl
    rw [hsum]
    unfold userTotal recomputeUserDayPure
    rw [lookupUserLog_upsert]
    rfl
  · simp at h

/-- C1 witness: on the example state, the recomputation for (user 1, day 1)
succeeds and the stored total matches the active-repository sum. -/
theorem recompute_user_day_sum_invariant_witness :
    userTotal c1Out.1 1 1 = some (activeSum c1Out.1 1 1) :=
  recompute_user_day_sum_invariant sEx 1 1 c1Out rfl

/-- C2: replaying the per-day totals [1,1,1,0,1] for days 1 through 5 yields
exactly one closed streak interval with start 1, end 3, length 3 and exactly
one active interval with start 5, length 1. -/
theorem streak_replay_contiguity_example :
    recomputeStreaksFromScratch 1 [(1, 1), (2, 1), (3, 1), (4, 0), (5, 1)] =
      [⟨1, 1, some 3, 3, false⟩, ⟨1, 5, none, 1, true⟩] := by decide

/-- C3: ingestion is an idempotent full-replace upsert keyed by
(repositoryId, date): running the full pipeline a second time with the
identical observation returns the same state (so the RepoDayCommitRecord,
UserDayCommitRecord and StreakInterval relations are all unchanged after the
second call), and the count stored after ingestion is the observed count
itself — a re-observation replaces rather than adds to the stored count. -/
theorem ingest_idempotent_replace :
    (∀ s rid date c raw s1, ingestFull s rid date c raw = .ok s1 →
      ingestFull s1 rid date c raw = .ok s1) ∧
    (∀ s rid d c raw s1, ingestFull s rid (some d) c raw = .ok s1 →
      repoCount s1.repoLogs rid d = c) := by
  constructor
  · intro s rid date c raw s1 h
    by_cases hc : c < 0
    · unfold ingestFull at h
      rw [if_pos hc] at h
      simp at h
    · cases date with
      | none =>
        rw [ingestFull_eval_nonedate s rid c raw hc] at h
        simp at h
      | some d =>
        cases hfind : s.repos.find? (fun r => r.id == rid) with
        | none =>
          rw [ingestFull_eval_notfound s rid d c raw hc hfind] at h
          simp at h
        | some repo =>
          rw [ingestFull_eval_found s rid d c raw repo hc hfind] at h
          injection h with h1
          subst h1
          have hfind2 : (recomputeStreaks (recomputeUserDayPure
              { s with repoLogs := upsertRepoLog s.repoLogs ⟨rid, d, c, raw⟩ }
              repo.userId d) repo.userId).repos.find? (fun r => r.id == rid) =
              some repo := hfind
          rw [ingestFull_eval_found _ rid d c raw repo hc hfind2]
          have hlogs : (recomputeStreaks (recomputeUserDayPure
              { s with repoLogs := upsertRepoLog s.repoLogs ⟨rid, d, c, raw⟩ }
              repo.userId d) repo.userId).repoLogs =
              upsertRepoLog s.repoLogs ⟨rid, d, c, raw⟩ := rfl
          rw [hlogs, upsertRepoLog_idem]
          have hstate : ({ (recomputeStreaks (recomputeUserDayPure
              { s with repoLogs := upsertRepoLog s.repoLogs ⟨rid, d, c, raw⟩ }
              repo.userId d) repo.userId) with
                repoLogs := upsertRepoLog s.repoLogs ⟨rid, d, c, raw⟩ } : CoreState) =
              recomputeStreaks (recomputeUserDayPure
              { s with repoLogs := upsertRepoLog s.repoLogs ⟨rid, d, c, raw⟩ }
              repo.userId d) repo.userId := rfl
          rw [hstate, pipeline_idem
            { s with repoLogs := upsertRepoLog s.repoLogs ⟨rid, d, c, raw⟩ }
            repo.userId d]
  · intro s rid d c raw s1 h
    by_cases hc : c < 0
    · unfold ingestFull at h
      rw [if_pos hc] at h
      simp at h
    · cases hfind : s.repos.find? (fun r => r.id == rid) with
      | none =>
        rw [ingestFull_eval_notfound s rid d c raw hc hfind] at h
        simp at h
      | some repo =>
        rw [ingestFull_eval_found s rid d c raw repo hc hfind] at h
        injection h with h1
        subst h1
        have hlogs : (recomputeStreaks (recomputeUserDayPure
            { s with repoLogs := upsertRepoLog s.repoLogs ⟨rid, d, c, raw⟩ }
            repo.userId d) repo.userId).repoLogs =
            upsertRepoLog s.repoLogs ⟨rid, d, c, raw⟩ := rfl
        rw [hlogs]
        unfold repoCount
        rw [lookupRepoLog_upsert]

/-- C3 witness: on the example state, re-ingesting (repository 1, day 1,
count 2) leaves the pipeline result unchanged and the stored count is 2. -/
theorem ingest_idempotent_replace_witness :
    ingestFull c3Out 1 (some 1) 2 "p" = Except.ok c3Out ∧
      repoCount c3Out.repoLogs 1 1 = 2 :=
  ⟨ingest_idempotent_replace.1 sEx 1 (some 1) 2 "p" c3Out rfl,
   ingest_idempotent_replace.2 sEx 1 1 2 "p" c3Out rfl⟩

theorem bool_eq_false {b : Bool} (h : ¬b = true) : b = false := by
  cases b
  · rfl
  · exact absurd rfl h

theorem lookup_foldl_applyEvent (events : List IngestEvent) :
    ∀ (logs : List RepoDailyCommitLog) (rid : RepoId) (d : Day),
      lookupRepoLog (events.foldl applyEvent logs) rid d =
        match lastFor events rid d with
        | some e => some ⟨e.repositoryId, e.date, e.count, e.rawPayload⟩
        | none => lookupRepoLog logs rid d := by
  induction events with
  | nil => intro logs rid d; rfl
  | cons e es ih =>
    intro logs rid d
    rw [List.foldl_cons, ih (applyEvent logs e) rid d]
    have hco : lastFor (e :: es) rid d =
        match lastFor es rid d with
        | some x => some x
        | none => if e.repositoryId == rid && e.date == d then some e else none := by
      unfold lastFor
      rw [List.reverse_cons, List.find?_append]
      cases hf : es.reverse.find? (fun e => e.repositoryId == rid && e.date == d) with
      | some x => rfl
      | none =>
        by_cases hpe : (e.repositoryId == rid && e.date == d) = true
        · rw [if_pos hpe]
          simp [List.find?, hpe]
        · rw [if_neg hpe]
          simp [List.find?, bool_eq_false hpe]
    rw [hco]
    cases hl : lastFor es rid d with
    | some x => rfl
    | none =>
      by_cases hpe : (e.repositoryId == rid && e.date == d) = true
      · rw [if_pos hpe]
        obtain ⟨h1, h2⟩ : e.repositoryId = rid ∧ e.date = d := by simpa using hpe
        subst h1
        subst h2
        unfold applyEvent
        exact lookupRepoLog_upsert logs e.repositoryId e.date e.count e.rawPayload
      · rw [if_neg hpe]
        unfold applyEvent lookupRepoLog upsertRepoLog
        apply find?_upsertBy_ne
        · exact bool_eq_false hpe
        · intro l hkl
          obtain ⟨hk1, hk2⟩ : l.userRepoId = e.repositoryId ∧ l.commitDate = e.date := by
            simpa using hkl
          rw [hk1, hk2]
          exact bool_eq_false hpe

theorem lastFor_perm (events events' : List IngestEvent) (hp : events.Perm events')
    (ha : EventsAgree events) (rid : RepoId) (d : Day) :
    lastFor events rid d = lastFor events' rid d := by
  unfold lastFor
  cases h1 : events.reverse.find? (fun e => e.repositoryId == rid && e.date == d) with
  | none =>
    cases h2 : events'.reverse.find? (fun e => e.repositoryId == rid && e.date == d) with
    | none => rfl
    | some y =>
      exfalso
      have hpy := List.find?_some h2
      have hmy : y ∈ events' := List.mem_reverse.mp (List.mem_of_find?_eq_some h2)
      have hnone := List.find?_eq_none.mp h1
      exact hnone y (List.mem_reverse.mpr (hp.mem_iff.mpr hmy)) hpy
  | some x =>
    cases h2 : events'.reverse.find? (fun e => e.repositoryId == rid && e.date == d) with
    | none =>
      exfalso
      have hpx := List.find?_some h1
      have hmx : x ∈ events := List.mem_reverse.mp (List.mem_of_find?_eq_some h1)
      have hnone := List.find?_eq_none.mp h2
      exact hnone x (List.mem_reverse.mpr (hp.mem_iff.mp hmx)) hpx
    | some y =>
      have hpx := List.find?_some h1
      have hpy := List.find?_some h2
      have hmx : x ∈ events := List.mem_reverse.mp (List.mem_of_find?_eq_some h1)
      have hmy : y ∈ events := hp.mem_iff.mpr (List.mem_reverse.mp (List.mem_of_find?_eq_some h2))
      obtain ⟨hx1, hx2⟩ : x.repositoryId = rid ∧ x.date = d := by simpa using hpx
      obtain ⟨hy1, hy2⟩ : y.repositoryId = rid ∧ y.date = d := by simpa using hpy
      have : x = y := ha x hmx y hmy (hx1.trans hy1.symm) (hx2.trans hy2.symm)
      rw [this]

theorem lookup_replay_perm (events events' : List IngestEvent)
    (hp : events.Perm events') (ha : EventsAgree events) (rid : RepoId) (d : Day) :
    lookupRepoLog (replayEvents events) rid d =
      lookupRepoLog (replayEvents events') rid d := by
  unfold replayEvents
  rw [lookup_foldl_applyEvent events [] rid d, lookup_foldl_applyEvent events' [] rid d,
    lastFor_perm events events' hp ha rid d]

/-- C4 counterexample: two observations for the same (repository, date) key
with different counts are a permutation of each other reversed, yet the final
per-user daily total differs between the two ingestion orders (last write
wins under replace-on-conflict). -/
theorem ingest_order_dependence_cex :
    [cexE1, cexE2].Perm [cexE2, cexE1] ∧
      ¬dayTotal cexRepos [cexE1, cexE2] 10 1 = dayTotal cexRepos [cexE2, cexE1] 10 1 := by
  constructor
  · exact List.Perm.swap cexE2 cexE1 []
  · decide

/-- C4 (amended): for a finite set of per-repository ingestion events for one
user in which any two events sharing a (repositoryId, date) key are identical,
every permutation of the events yields, after recomputation, the same final
per-user daily totals for every date and the same final streak interval set. -/
theorem ingest_order_independence_amended (repos : List UserRepository)
    (events events' : List IngestEvent) (uid : UserId) (days : List Day)
    (hp : events.Perm events') (ha : EventsAgree events) :
    (∀ d, dayTotal repos events uid d = dayTotal repos events' uid d) ∧
    streaksOf uid repos events days = streaksOf uid repos events' days := by
  have hcount : ∀ rid d, repoCount (replayEvents events) rid d =
      repoCount (replayEvents events') rid d := by
    intro rid d
    unfold repoCount
    rw [lookup_replay_perm events events' hp ha rid d]
  have htot : ∀ d, dayTotal repos events uid d = dayTotal repos events' uid d := by
    intro d
    unfold dayTotal
    congr 1
    apply map_eq_map_of
    intro r hr
    exact hcount r.id d
  refine ⟨htot, ?_⟩
  unfold streaksOf
  have hmap : days.map (fun d => (d, dayTotal repos events uid d)) =
      days.map (fun d => (d, dayTotal repos events' uid d)) :=
    map_eq_map_of _ _ days (fun d hd => by rw [htot d])
  rw [hmap]

/-- C4 witness: the two orders of two key-distinct observations for user 10
give the same totals and the same streak set. -/
theorem ingest_order_independence_amended_witness :
    (∀ d, dayTotal cexRepos [c4E1, c4E2] 10 d = dayTotal cexRepos [c4E2, c4E1] 10 d) ∧
    streaksOf 10 cexRepos [c4E1, c4E2] [1, 2] = streaksOf 10 cexRepos [c4E2, c4E1] [1, 2] :=
  ingest_order_independence_amended cexRepos [c4E1, c4E2] [c4E2, c4E1] 10 [1, 2]
    (List.Perm.swap c4E2 c4E1 []) (by unfold EventsAgree; decide)

theorem ingest_eval_neg (s : CoreState) (rid : RepoId) (date : Option Day)
    (c : Int) (raw : String) (hc : c < 0) :
    ingest s rid date c raw = .error .validationError := by
  unfold ingest
  rw [if_pos hc]

theorem ingest_eval_nonedate (s : CoreState) (rid : RepoId) (c : Int)
    (raw : String) (hc : ¬c < 0) :
    ingest s rid none c raw = .error .validationError := by
  unfold ingest
  rw [if_neg hc]

theorem ingest_eval_notfound (s : CoreState) (rid : RepoId) (d : Day) (c : Int)
    (raw : String) (hc : ¬c < 0)
    (hfind : s.repos.find? (fun r => r.id == rid) = none) :
    ingest s rid (some d) c raw = .error .notFoundError := by
  unfold ingest
  rw [if_neg hc]
  simp only [hfind]

theorem ingest_eval_found (s : CoreState) (rid : RepoId) (d : Day) (c : Int)
    (raw : String) (repo : UserRepository) (hc : ¬c < 0)
    (hfind : s.repos.find? (fun r => r.id == rid) = some repo) :
    ingest s rid (some d) c raw =
      .ok ({ s with repoLogs := upsertRepoLog s.repoLogs ⟨rid, d, c, raw⟩ },
           ⟨rid, d, c, raw⟩) := by
  unfold ingest
  rw [if_neg hc]
  simp only [hfind]

theorem repos_find?_none_iff (s : CoreState) (rid : RepoId) :
    s.repos.find? (fun r => r.id == rid) = none ↔ ¬∃ r ∈ s.repos, r.id = rid := by
  rw [List.find?_eq_none]
  constructor
  · rintro hall ⟨r, hr, hid⟩
    exact hall r hr (by simp [hid])
  · intro hnone r hr hid
    exact hnone ⟨r, hr, by simpa using hid⟩

/-- C7: the ingestion gate fails with ValidationError exactly when the count
is negative or the date is malformed; when validation passes it fails with
NotFoundError exactly when the repository id references no stored
TrackedRepository; and whenever validation passes and the repository exists —
active or not — it succeeds and returns the stored (upserted) record. -/
theorem ingest_error_conditions :
    ∀ (s : CoreState) (rid : RepoId) (date : Option Day) (c : Int) (raw : String),
      ((ingest s rid date c raw = .error .validationError) ↔ (c < 0 ∨ date = none)) ∧
      (¬c < 0 → ∀ d, date = some d →
        ((ingest s rid date c raw = .error .notFoundError) ↔ ¬∃ r ∈ s.repos, r.id = rid)) ∧
      (¬c < 0 → ∀ d repo, date = some d →
        s.repos.find? (fun r => r.id == rid) = some repo →
        ingest s rid date c raw =
          .ok ({ s with repoLogs := upsertRepoLog s.repoLogs ⟨rid, d, c, raw⟩ },
               ⟨rid, d, c, raw⟩)) := by
  intro s rid date c raw
  refine ⟨?_, ?_, ?_⟩
  · constructor
    · intro h
      by_cases hc : c < 0
      · exact Or.inl hc
      · cases date with
        | none => exact Or.inr rfl
        | some d =>
          exfalso
          cases hfind : s.repos.find? (fun r => r.id == rid) with
          | none =>
            rw [ingest_eval_notfound s rid d c raw hc hfind] at h
            simp at h
          | some repo =>
            rw [ingest_eval_found s rid d c raw repo hc hfind] at h
            simp at h
    · rintro (hc | hd)
      · exact ingest_eval_neg s rid date c raw hc
      · subst hd
        by_cases hc : c < 0
        · exact ingest_eval_neg s rid none c raw hc
        · exact ingest_eval_nonedate s rid c raw hc
  · intro hc d hd
    subst hd
    constructor
    · intro h
      cases hfind : s.repos.find? (fun r => r.id == rid) with
      | none => exact (repos_find?_none_iff s rid).mp hfind
      | some repo =>
        rw [ingest_eval_found s rid d c raw repo hc hfind] at h
        simp at h
    · intro hno
      exact ingest_eval_notfound s rid d c raw hc ((repos_find?_none_iff s rid).mpr hno)
  · intro hc d repo hd hfind
    subst hd
    exact ingest_eval_found s rid d c raw repo hc hfind

/-- C7 witness: a negative count is rejected with ValidationError, and an
observation for the deactivated repository 2 is still accepted and stored. -/
theorem ingest_error_conditions_witness :
    ingest sEx 2 (some 1) (-1) "w" = Except.error CoreError.validationError ∧
    ingest sEx 2 (some 1) 7 "w" =
      Except.ok ({ sEx with repoLogs := upsertRepoLog sEx.repoLogs ⟨2, 1, 7, "w"⟩ },
                 ⟨2, 1, 7, "w"⟩) :=
  ⟨(ingest_error_conditions sEx 2 (some 1) (-1) "w").1.mpr (Or.inl (by decide)),
   (ingest_error_conditions sEx 2 (some 1) 7 "w").2.2 (by decide) 1 repoB rfl rfl⟩

/-- C10: the UpsertUser endpoint answers HTTP 400 and leaves the user store
untouched — the usecase is never reached — for every bound request whose
GitHubUserID is 0 or whose GitHubUsername is empty. -/
theorem upsert_user_handler_rejects_invalid :
    ∀ (store : List User) (now fresh : Nat) (req : UpsertUserRequest),
      req.githubUserId = 0 ∨ req.githubUsername = "" →
      upsertUserHandler store now fresh (.ok req) = (400, store) := by
  intro store now fresh req h
  unfold upsertUserHandler
  show (if req.githubUserId == 0 then ((400 : Nat), store)
    else if req.githubUsername == "" then (400, store)
    else (200, upsertUser store req.githubUserId req.githubUsername req.email now fresh)) =
    (400, store)
  rcases h with h | h
  · rw [if_pos (by simp [h])]
  · by_cases h0 : (req.githubUserId == 0) = true
    · rw [if_pos h0]
    · rw [if_neg h0, if_pos (by simp [h])]

/-- C10 witness: a request with GitHubUserID 0 is rejected with 400 and the
store is unchanged. -/
theorem upsert_user_handler_rejects_invalid_witness :
    upsertUserHandler [uA] 9 9 (.ok ⟨0, "mallory", "m@x"⟩) = (400, [uA]) :=
  upsert_user_handler_rejects_invalid [uA] 9 9 ⟨0, "mallory", "m@x"⟩ (Or.inl rfl)

theorem repoKeys_upsert (logs : List RepoDailyCommitLog) (r : RepoDailyCommitLog)
    (h : (logs.map (fun l => (l.userRepoId, l.commitDate))).Nodup) :
    ((upsertRepoLog logs r).map (fun l => (l.userRepoId, l.commitDate))).Nodup := by
  unfold upsertRepoLog
  refine nodup_map_upsertBy _ _ r logs ?_ h
  intro l
  constructor
  · intro hk
    obtain ⟨h1, h2⟩ : l.userRepoId = r.userRepoId ∧ l.commitDate = r.commitDate := by
      simpa using hk
    rw [h1, h2]
  · intro hk
    have h1 : l.userRepoId = r.userRepoId := congrArg Prod.fst hk
    have h2 : l.commitDate = r.commitDate := congrArg Prod.snd hk
    simp [h1, h2]

theorem userKeys_upsert (logs : List UserDailyCommitLog) (r : UserDailyCommitLog)
    (h : (logs.map (fun l => (l.userId, l.date))).Nodup) :
    ((upsertUserLog logs r).map (fun l => (l.userId, l.date))).Nodup := by
  unfold upsertUserLog
  refine nodup_map_upsertBy _ _ r logs ?_ h
  intro l
  constructor
  · intro hk
    obtain ⟨h1, h2⟩ : l.userId = r.userId ∧ l.date = r.date := by simpa using hk
    rw [h1, h2]
  · intro hk
    have h1 : l.userId = r.userId := congrArg Prod.fst hk
    have h2 : l.date = r.date := congrArg Prod.snd hk
    simp [h1, h2]

/-- C5: the migration declares unique indexes on the
(repository, date) and (user, date) key tuples, and every modelled operation
preserves pairwise distinctness of those key tuples in the stores. -/
theorem storage_key_uniqueness :
    (("repo_daily_commit_logs", ["user_repo_id", "commit_date"]) ∈ uniqueIndexes ∧
     ("user_daily_commit_logs", ["user_id", "date"]) ∈ uniqueIndexes) ∧
    (∀ s rid date c raw s1, ingestFull s rid date c raw = .ok s1 →
      RepoKeysUnique s → UserKeysUnique s → RepoKeysUnique s1 ∧ UserKeysUnique s1) ∧
    (∀ s uid d out, recomputeUserDay s uid d = .ok out →
      RepoKeysUnique s → UserKeysUnique s → RepoKeysUnique out.1 ∧ UserKeysUnique out.1) ∧
    (∀ s uid, RepoKeysUnique s → RepoKeysUnique (recomputeStreaks s uid)) ∧
    (∀ s uid, UserKeysUnique s → UserKeysUnique (recomputeStreaks s uid)) ∧
    (∀ s g un em now fresh, RepoKeysUnique s →
      RepoKeysUnique (upsertUserState s g un em now fresh)) ∧
    (∀ s g un em now fresh, UserKeysUnique s →
      UserKeysUnique (upsertUserState s g un em now fresh)) := by
  refine ⟨⟨by simp [uniqueIndexes], by simp [uniqueIndexes]⟩, ?_, ?_, ?_, ?_, ?_, ?_⟩
  · intro s rid date c raw s1 h hr hu
    by_cases hc : c < 0
    · unfold ingestFull at h
      rw [if_pos hc] at h
      simp at h
    · cases date with
      | none =>
        rw [ingestFull_eval_nonedate s rid c raw hc] at h
        simp at h
      | some d =>
        cases hfind : s.repos.find? (fun r => r.id == rid) with
        | none =>
          rw [ingestFull_eval_notfound s rid d c raw hc hfind] at h
          simp at h
        | some repo =>
          rw [ingestFull_eval_found s rid d c raw repo hc hfind] at h
          injection h with h1
          subst h1
          constructor
          · show ((upsertRepoLog s.repoLogs ⟨rid, d, c, raw⟩).map
              (fun l => (l.userRepoId, l.commitDate))).Nodup
            exact repoKeys_upsert s.repoLogs _ hr
          · show ((upsertUserLog s.userLogs _).map (fun l => (l.userId, l.date))).Nodup
            exact userKeys_upsert s.userLogs _ hu
  · intro s uid d out h hr hu
    unfold recomputeUserDay at h
    split at h
    · injection h with h1
      subst h1
      refine ⟨hr, ?_⟩
      show ((upsertUserLog s.userLogs _).map (fun l => (l.userId, l.date))).Nodup
      exact userKeys_upsert s.userLogs _ hu
    · simp at h
  · intro s uid hr
    exact hr
  · intro s uid hu
    exact hu
  · intro s g un em now fresh hr
    exact hr
  · intro s g un em now fresh hu
    exact hu

/-- C5 witness: the unique indexes are declared and, starting from the example
state whose key tuples are distinct, the pipeline run keeps them distinct. -/
theorem storage_key_uniqueness_witness :
    RepoKeysUnique c3Out ∧ UserKeysUnique c3Out :=
  storage_key_uniqueness.2.1 sEx 1 (some 1) 2 "p" c3Out rfl
    (by unfold RepoKeysUnique; decide) (by unfold UserKeysUnique; decide)

theorem length_filter_and_le {α : Type} (p q : α → Bool) (l : List α) :
    (l.filter (fun a => p a && q a)).length ≤ (l.filter p).length := by
  induction l with
  | nil => simp
  | cons a l ih =>
    simp only [List.filter_cons]
    by_cases hp : p a = true
    · by_cases hq : q a = true
      · rw [if_pos (by simp [hp, hq]), if_pos hp]
        simpa using ih
      · rw [if_neg (by simp [hp, hq]), if_pos hp]
        exact le_trans ih (Nat.le_succ _)
    · rw [if_neg (by simp [hp]), if_neg hp]
      exact ih

theorem recomputeStreaks_active (s : CoreState) (uid : UserId)
    (h : AtMostOneActive s) : AtMostOneActive (recomputeStreaks s uid) := by
  intro u
  have hstr : (recomputeStreaks s uid).streaks =
      s.streaks.filter (fun t => t.userId != uid) ++
        recomputeStreaksFromScratch uid (sortByDay (userTotals s uid)) := rfl
  rw [hstr, List.filter_append, List.length_append]
  by_cases hu : u = uid
  · subst hu
    have h1 : (s.streaks.filter (fun t => t.userId != u)).filter
        (fun t => t.userId == u && t.active) = [] := by
      rw [List.filter_eq_nil_iff]
      intro t ht
      have hmem := List.mem_filter.mp ht
      have hne : t.userId ≠ u := by simpa using hmem.2
      simp [hne]
    rw [h1]
    simp only [List.length_nil, Nat.zero_add]
    have h2 : (recomputeStreaksFromScratch u (sortByDay (userTotals s u))).filter
        (fun t => t.userId == u && t.active) =
        (recomputeStreaksFromScratch u (sortByDay (userTotals s u))).filter
        (fun t => t.active) := by
      apply List.filter_congr
      intro t ht
      have hid := fromScratch_userId u _ t ht
      simp [hid]
    rw [h2]
    exact fromScratch_active_le_one u _
  · have h2 : (recomputeStreaksFromScratch uid (sortByDay (userTotals s uid))).filter
        (fun t => t.userId == u && t.active) = [] := by
      rw [List.filter_eq_nil_iff]
      intro t ht
      have hid := fromScratch_userId uid _ t ht
      simp [hid, Ne.symm hu]
    rw [h2]
    simp only [List.length_nil, Nat.add_zero]
    calc (List.filter (fun t => t.userId == u && t.active)
          (s.streaks.filter (fun t => t.userId != uid))).length
        = (s.streaks.filter
            (fun t => (t.userId == u && t.active) && (t.userId != uid))).length := by
          rw [List.filter_filter]
      _ ≤ (s.streaks.filter (fun t => t.userId == u && t.active)).length :=
          length_filter_and_le _ _ _
      _ ≤ 1 := h u

/-- C6: every streak recomputation result carries at most one active row, and
each modelled operation of the system preserves the invariant that each user
has at most one active StreakInterval. -/
theorem at_most_one_active_streak :
    (∀ uid totals,
      ((recomputeStreaksFromScratch uid totals).filter (fun t => t.active)).length ≤ 1) ∧
    (∀ s uid, AtMostOneActive s → AtMostOneActive (recomputeStreaks s uid)) ∧
    (∀ s rid date c raw s1, ingestFull s rid date c raw = .ok s1 →
      AtMostOneActive s → AtMostOneActive s1) ∧
    (∀ s uid d out, recomputeUserDay s uid d = .ok out →
      AtMostOneActive s → AtMostOneActive out.1) ∧
    (∀ s g un em now fresh, AtMostOneActive s →
      AtMostOneActive (upsertUserState s g un em now fresh)) := by
  refine ⟨fromScratch_active_le_one, recomputeStreaks_active, ?_, ?_, ?_⟩
  · intro s rid date c raw s1 h ha
    by_cases hc : c < 0
    · unfold ingestFull at h
      rw [if_pos hc] at h
      simp at h
    · cases date with
      | none =>
        rw [ingestFull_eval_nonedate s rid c raw hc] at h
        simp at h
      | some d =>
        cases hfind : s.repos.find? (fun r => r.id == rid) with
        | none =>
          rw [ingestFull_eval_notfound s rid d c raw hc hfind] at h
          simp at h
        | some repo =>
          rw [ingestFull_eval_found s rid d c raw repo hc hfind] at h
          injection h with h1
          subst h1
          exact recomputeStreaks_active
            (recomputeUserDayPure
              { s with repoLogs := upsertRepoLog s.repoLogs ⟨rid, d, c, raw⟩ }
              repo.userId d) repo.userId ha
  · intro s uid d out h ha
    unfold recomputeUserDay at h
    split at h
    · injection h with h1
      subst h1
      exact ha
    · simp at h
  · intro s g un em now fresh ha
    exact ha

/-- C6 witness: the invariant holds in the example state (no streak rows) and
is preserved by the pipeline run. -/
theorem at_most_one_active_streak_witness : AtMostOneActive c3Out :=
  at_most_one_active_streak.2.2.1 sEx 1 (some 1) 2 "p" c3Out rfl
    (by intro u; simp [sEx])

theorem upsertUser_found (store : List User) (g : Nat) (un em : String)
    (now fresh : Nat) (existing : User)
    (hfind : findByGitHubUserID store g = some existing) :
    upsertUser store g un em now fresh =
      updateUser store ⟨existing.id, g, un, em, existing.createdAt, now, none⟩ := by
  unfold upsertUser
  rw [hfind]

theorem upsertUser_absent (store : List User) (g : Nat) (un em : String)
    (now fresh : Nat) (hfind : findByGitHubUserID store g = none) :
    upsertUser store g un em now fresh =
      createUser store ⟨fresh, g, un, em, now, now, none⟩ := by
  unfold upsertUser
  rw [hfind]

theorem updateUser_keeps_ids (store : List User) (r : User) :
    ∀ x ∈ store, ∃ y ∈ updateUser store r, y.id = x.id := by
  intro x hx
  unfold updateUser
  refine ⟨if x.id == r.id then r else x, List.mem_map_of_mem _ hx, ?_⟩
  by_cases hid : (x.id == r.id) = true
  · rw [if_pos hid]
    exact ((by simpa using hid : x.id = r.id)).symm
  · rw [if_neg hid]

/-- C8: the User schema keys users by the immutable GitHub user id (a unique
index on `github_user_id`, none on the mutable `github_username`), and no
modelled operation ever structurally deletes a user record: creation appends,
the primary-key save and the upsert keep every stored id in place, and the
core pipeline operations leave the users relation untouched (removal would
only ever be the gorm `deleted_at` soft marker on the schema). -/
theorem user_identity_never_deleted :
    ("github_user_id" ∈ userUniqueIndexColumns ∧
      "github_username" ∉ userUniqueIndexColumns) ∧
    (∀ store u, ∀ x ∈ store, ∃ y ∈ createUser store u,
      y.id = x.id ∧ y.githubUserId = x.githubUserId) ∧
    (∀ store r, ∀ x ∈ store, ∃ y ∈ updateUser store r, y.id = x.id) ∧
    (∀ store g un em now fresh, ∀ x ∈ store,
      ∃ y ∈ upsertUser store g un em now fresh, y.id = x.id) ∧
    (∀ s rid date c raw s1, ingestFull s rid date c raw = .ok s1 →
      s1.users = s.users) ∧
    (∀ s uid d out, recomputeUserDay s uid d = .ok out → out.1.users = s.users) ∧
    (∀ s uid, (recomputeStreaks s uid).users = s.users) := by
  refine ⟨⟨by simp [userUniqueIndexColumns], by simp [userUniqueIndexColumns]⟩,
    ?_, updateUser_keeps_ids, ?_, ?_, ?_, ?_⟩
  · intro store u x hx
    exact ⟨x, List.mem_append_left _ hx, rfl, rfl⟩
  · intro store g un em now fresh x hx
    cases hfind : findByGitHubUserID store g with
    | none =>
      rw [upsertUser_absent store g un em now fresh hfind]
      exact ⟨x, List.mem_append_left _ hx, rfl⟩
    | some existing =>
      rw [upsertUser_found store g un em now fresh existing hfind]
      exact updateUser_keeps_ids store _ x hx
  · intro s rid date c raw s1 h
    by_cases hc : c < 0
    · unfold ingestFull at h
      rw [if_pos hc] at h
      simp at h
    · cases date with
      | none =>
        rw [ingestFull_eval_nonedate s rid c raw hc] at h
        simp at h
      | some d =>
        cases hfind : s.repos.find? (fun r => r.id == rid) with
        | none =>
          rw [ingestFull_eval_notfound s rid d c raw hc hfind] at h
          simp at h
        | some repo =>
          rw [ingestFull_eval_found s rid d c raw repo hc hfind] at h
          injection h with h1
          subst h1
          rfl
  · intro s uid d out h
    unfold recomputeUserDay at h
    split at h
    · injection h with h1
      subst h1
      rfl
    · simp at h
  · intro s uid
    rfl

/-- C8 witness: the example user survives an upsert that changes the mutable
display name for the same GitHub user id. -/
theorem user_identity_never_deleted_witness :
    ∃ y ∈ upsertUser [uA] 100 "alice-renamed" "a2@example.com" 5 7, y.id = uA.id :=
  user_identity_never_deleted.2.2.2.1 [uA] 100 "alice-renamed" "a2@example.com" 5 7
    uA (by simp)

theorem findByGitHubUserID_update (g : Nat) (N : User) (hNg : N.githubUserId = g)
    (hNd : N.deletedAt = none) :
    ∀ (store : List User) (existing : User),
      findByGitHubUserID store g = some existing → N.id = existing.id →
      findByGitHubUserID (updateUser store N) g = some N := by
  intro store
  induction store with
  | nil =>
    intro existing hfind hNid
    simp [findByGitHubUserID, List.find?] at hfind
  | cons a store ih =>
    intro existing hfind hNid
    unfold findByGitHubUserID at hfind ⊢
    unfold updateUser
    simp only [List.map_cons]
    by_cases hpa : (a.deletedAt.isNone && a.githubUserId == g) = true
    · rw [@List.find?_cons_of_pos _ (fun u => u.deletedAt.isNone && u.githubUserId == g)
        a store hpa] at hfind
      have ha : a = existing := by injection hfind
      rw [if_pos (show (a.id == N.id) = true by simp [hNid, ha])]
      exact @List.find?_cons_of_pos _ (fun u => u.deletedAt.isNone && u.githubUserId == g)
        N _ (by simp [hNd, hNg])
    · rw [@List.find?_cons_of_neg _ (fun u => u.deletedAt.isNone && u.githubUserId == g)
        a store (by simp [hpa])] at hfind
      by_cases hid : (a.id == N.id) = true
      · rw [if_pos hid]
        exact @List.find?_cons_of_pos _ (fun u => u.deletedAt.isNone && u.githubUserId == g)
          N _ (by simp [hNd, hNg])
      · rw [if_neg hid]
        rw [@List.find?_cons_of_neg _ (fun u => u.deletedAt.isNone && u.githubUserId == g)
          a _ (by simp [hpa])]
        exact ih existing hfind hNid

theorem countP_update_of (N : User) (p : User → Bool) :
    ∀ (store : List User), (∀ x ∈ store, x.id = N.id → p x = p N) →
      (updateUser store N).countP p = store.countP p := by
  intro store
  induction store with
  | nil => intro h; rfl
  | cons a store ih =>
    intro h
    unfold updateUser
    simp only [List.map_cons, List.countP_cons]
    have hrest : (updateUser store N).countP p = store.countP p :=
      ih (fun x hx => h x (by simp [hx]))
    unfold updateUser at hrest
    rw [hrest]
    by_cases hid : (a.id == N.id) = true
    · rw [if_pos hid, h a (by simp) (by simpa using hid)]
    · rw [if_neg hid]

/-- C9: when a user with the given GitHub user id already exists (and ids are
unique, as the primary key guarantees), Upsert creates no record — the store
length and the number of records with that GitHub user id are unchanged — the
stored record keeps its ID and CreatedAt and carries the new username, email
and updated timestamp, and every other record is untouched. -/
theorem upsert_preserves_identity_fields :
    ∀ (store : List User) (g : Nat) (un em : String) (now fresh : Nat)
      (existing : User),
      findByGitHubUserID store g = some existing →
      (store.map (fun u => u.id)).Nodup →
      (upsertUser store g un em now fresh).length = store.length ∧
      findByGitHubUserID (upsertUser store g un em now fresh) g =
        some ⟨existing.id, g, un, em, existing.createdAt, now, none⟩ ∧
      (∀ x ∈ store, x.id ≠ existing.id → x ∈ upsertUser store g un em now fresh) ∧
      (upsertUser store g un em now fresh).countP (fun u => u.githubUserId == g) =
        store.countP (fun u => u.githubUserId == g) := by
  intro store g un em now fresh existing hfind hids
  have hfind2 : store.find? (fun u => u.deletedAt.isNone && u.githubUserId == g) =
      some existing := hfind
  have hmem : existing ∈ store := List.mem_of_find?_eq_some hfind2
  have hpred := List.find?_some hfind2
  have hgh : existing.githubUserId = g := by simpa using (Bool.and_eq_true _ _).mp hpred |>.2
  rw [upsertUser_found store g un em now fresh existing hfind]
  refine ⟨?_, ?_, ?_, ?_⟩
  · unfold updateUser
    exact List.length_map _ _
  · exact findByGitHubUserID_update g _ rfl rfl store existing hfind rfl
  · intro x hx hne
    unfold updateUser
    refine List.mem_map.mpr ⟨x, hx, ?_⟩
    rw [if_neg (by simpa using hne)]
  · refine countP_update_of _ _ store ?_
    intro x hx hid
    have hxe : x = existing :=
      List.inj_on_of_nodup_map hids hx hmem hid
    simp [hxe, hgh]

/-- C9 witness: upserting a renamed profile for the existing GitHub user id
keeps the stored record's ID and CreatedAt and changes only the mutable
fields. -/
theorem upsert_preserves_identity_fields_witness :
    findByGitHubUserID (upsertUser [uA] 100 "alice-renamed" "a2@example.com" 5 7) 100 =
      some ⟨uA.id, 100, "alice-renamed", "a2@example.com", uA.createdAt, 5, none⟩ :=
  (upsert_preserves_identity_fields [uA] 100 "alice-renamed" "a2@example.com" 5 7 uA
    rfl (by decide)).2.1
